import Mathlib

/-!
Shallow embedding of the variant-resolution pipeline of `MutationInfo/__init__.py`
(class `MutationInfo`).  Strings are modelled as `List Char`, Python integers as
`Int`, raised exceptions as explicit error values, and every remote collaborator
(Entrez, UCSC, LOVD, Mutalyzer, VEP, pyhgvs, the biocommons mappers) as an oracle
field of an `Env` record consumed exactly where the source consumes the
corresponding response.
-/

/-- Values stored in the `ref`/`alt` fields of a result dictionary: the Python
code puts `None`, a string, or a list of strings there. -/
inductive PyVal where
  | noneV
  | strV (s : List Char)
  | listV (l : List (List Char))
deriving DecidableEq, Repr

/-- The normalized coordinate record built by `MutationInfo._build_ret_dict`. -/
structure RetDict where
  chrom : List Char
  offset : Option Int
  ref : PyVal
  alt : PyVal
  genome : List Char
  source : List Char
deriving DecidableEq, Repr

/-- Python single-character string indexing `s[i]`: negative indices count from
the end; an index out of range raises `IndexError`, modelled as `none`. -/
def pyIndex (s : List Char) (i : Int) : Option Char :=
  let n : Int := s.length
  let j : Int := if i < 0 then i + n else i
  if 0 ≤ j ∧ j < n then s.get? j.toNat else none

/-- Python slicing `s[a:b]` with unit step: both bounds are normalised
(negative values count from the end) and clamped to `[0, len(s)]`. -/
def pySlice (s : List Char) (a b : Int) : List Char :=
  let n : Int := s.length
  let na : Int := max 0 (min n (if a < 0 then a + n else a))
  let nb : Int := max 0 (min n (if b < 0 then b + n else b))
  (s.take nb.toNat).drop na.toNat

/-- Python `unicode.strip()`: remove leading and trailing whitespace. -/
def pyStrip (s : List Char) : List Char :=
  ((s.dropWhile Char.isWhitespace).reverse.dropWhile Char.isWhitespace).reverse

/-- The complement table of `MutationInfo.inverse` (the `inverter` dict);
a character outside the table raises `KeyError`, modelled as `none`. -/
def inverter (c : Char) : Option Char :=
  if c = 'A' then some 'T'
  else if c = 'T' then some 'A'
  else if c = 'C' then some 'G'
  else if c = 'G' then some 'C'
  else none

/-- The comprehension `[inverter[x] for x in nucleotide]` joined back into a
string; the first character outside the table raises (`none`). -/
def mapInverter : List Char → Option (List Char)
  | [] => some []
  | c :: rest =>
    match inverter c, mapInverter rest with
    | some c2, some r2 => some (c2 :: r2)
    | _, _ => none

/-- `MutationInfo.inverse`: `None` passes through; otherwise every character of
the upper-cased string is complemented.  The outer `none` models a raised
`KeyError`. -/
def inverse : Option (List Char) → Option (Option (List Char))
  | none => some none
  | some s => (mapInverter (s.map Char.toUpper)).map some

/-- `MutationInfo.blat_margin`: sequence taken left and right of the variant
position for the blat search. -/
def blat_margin : Int := 20000

/-- The chunk-window computation of `get_info` (lines 456-470): returns
`(chunk_start, chunk_end, relative_pos)` for a fasta of length `fastaLen` and a
variant position `pos` (`hgvs_position`). -/
def chunkBounds (fastaLen : Int) (pos : Int) : Int × Int × Int :=
  let sr : Int × Int :=
    if pos - blat_margin < 0 then ((0 : Int), pos)
    else (pos - blat_margin, blat_margin)
  let chunk_end : Int := if pos + blat_margin > fastaLen then fastaLen else pos + blat_margin
  (sr.1, chunk_end, sr.2)

/-- A `(start, end, strand)` triple extracted by `get_positions` from a feature
location (`feature.location.start.position`, `feature.location.end.position`,
`feature.location.strand`); `stop` stands for the Python attribute `end`. -/
structure Loc where
  start : Int
  stop : Int
  strand : Int
deriving DecidableEq, Repr

/-- Sum of the interval lengths `end - start` (the accumulated `previous_dif`
of `ret_f` after walking the whole list). -/
def cumLen (l : List Loc) : Int :=
  (l.map (fun P => P.stop - P.start)).sum

/-- The `for CDS_position in CDS` loop of `ret_f` together with its final
fall-through return `CDS[-1][1] + c_pos - previous_dif`. -/
def retWalk (lastEnd c_pos : Int) : List Loc → Int → Int
  | [], previous_dif => lastEnd + c_pos - previous_dif
  | P :: rest, previous_dif =>
    let current_dif := P.stop - P.start
    if previous_dif ≤ c_pos ∧ c_pos ≤ previous_dif + current_dif then
      P.start + c_pos - previous_dif
    else
      retWalk lastEnd c_pos rest (previous_dif + current_dif)

/-- The coding-to-absolute mapping function `ret_f` built by
`make_ret_function(CDS)` inside `_get_sequence_features_from_genbank`
(`start = CDS[0][0] + 1`, `end = CDS[-1][1]`; the list is never empty when the
closure is built, the default values are unreachable junk). -/
def ret_f (CDS : List Loc) (c_pos : Int) : Int :=
  let start := (CDS.headD ⟨0, 0, 0⟩).start + 1
  let lastEnd := (CDS.getLastD ⟨0, 0, 0⟩).stop
  if c_pos < 1 then start + c_pos
  else retWalk lastEnd c_pos CDS 0

/-- Python `observed.split('/')`. -/
def splitSlash : List Char → List (List Char)
  | [] => [[]]
  | '/' :: rest => [] :: splitSlash rest
  | c :: rest =>
    match splitSlash rest with
    | h :: t => (c :: h) :: t
    | [] => [[c]]

/-- One row returned by the UCSC dbSNP query in `_search_ucsc`
(`filter_by(name=variant)`). -/
structure UcscRow where
  chrom : List Char
  chromStart : Int
  chromEnd : Int
  refNCBI : List Char
  refUCSC : List Char
  observed : List Char
  strand : List Char
deriving DecidableEq, Repr

/-- The minus-strand comprehension of `_search_ucsc`:
`[inverse(x) if not x in ['-'] else '-' for x in ''.join(observed_s)]` —
note it iterates over single characters of the joined string.  `none` models a
`KeyError` raised by `inverse` on a character outside the complement table. -/
def seqObserved : List Char → Option (List (List Char))
  | [] => some []
  | x :: rest =>
    match (if x = '-' then some ['-'] else mapInverter [Char.toUpper x]), seqObserved rest with
    | some v, some vs => some (v :: vs)
    | _, _ => none

/-- Collapse of the alternative list of `_search_ucsc`:
`if len(alternative) == 1: alternative = alternative[0]`. -/
def altOf : List (List Char) → PyVal
  | [a] => PyVal.strV a
  | l => PyVal.listV l

/-- Per-row body of the `for result in results` loop of `_search_ucsc`
(`none` models a raised `KeyError`). -/
def processRow (genome : List Char) (r : UcscRow) : Option RetDict :=
  let reference := r.refNCBI
  let observed_s := splitSlash r.observed
  match (if r.strand = ['-'] then seqObserved observed_s.flatten else some observed_s) with
  | none => none
  | some os =>
    some ⟨r.chrom, some r.chromEnd, PyVal.strV reference,
          altOf (os.filter (fun x => x ≠ reference)), genome, "UCSC".data⟩

/-- Claimed behaviour of the same loop body, written from the spec sentence for
comparison: each `/`-separated observed allele is complemented as a whole
string (the `-` deletion marker preserved) before the alternates are
computed. -/
def processRow_claimed (genome : List Char) (r : UcscRow) : Option RetDict :=
  let reference := r.refNCBI
  let observed_s := splitSlash r.observed
  match (if r.strand = ['-'] then observedWholeStrings observed_s else some observed_s) with
  | none => none
  | some os =>
    some ⟨r.chrom, some r.chromEnd, PyVal.strV reference,
          altOf (os.filter (fun x => x ≠ reference)), genome, "UCSC".data⟩
where
  observedWholeStrings : List (List Char) → Option (List (List Char))
    | [] => some []
    | x :: rest =>
      match (if x = "-".data then some "-".data else mapInverter (x.map Char.toUpper)),
            observedWholeStrings rest with
      | some v, some vs => some (v :: vs)
      | _, _ => none

/-- Return value of `_search_ucsc`: a bare record when exactly one row matched,
otherwise the list of records. -/
inductive UcscSearchRes where
  | single (r : RetDict)
  | multi (l : List RetDict)
deriving DecidableEq, Repr

/-- `MutationInfo._search_ucsc` over the rows returned by the dbSNP table
(`none` models a raised exception inside the loop). -/
def search_ucsc (genome : List Char) (rows : List UcscRow) : Option UcscSearchRes :=
  match rows.mapM (processRow genome) with
  | none => none
  | some rets =>
    match rets with
    | [r] => some (UcscSearchRes.single r)
    | l => some (UcscSearchRes.multi l)

/-- Python truthiness of the `_search_ucsc` return value as tested by
`if not ret:` in `get_info` (a dict is truthy, a list is truthy iff
non-empty). -/
def ucscTruthy : UcscSearchRes → Bool
  | UcscSearchRes.single _ => true
  | UcscSearchRes.multi l => !l.isEmpty

/-- The keys of the `accession_types` table of `_get_ncbi_accession_type`. -/
def accessionTypeKeys : List (List Char) :=
  ["AC_".data, "NC_".data, "NG_".data, "NT_".data, "NW_".data, "NS_".data, "NZ_".data,
   "NM_".data, "NR_".data, "XM_".data, "XR_".data, "AP_".data, "NP_".data, "YP_".data,
   "XP_".data, "ZP_".data]

/-- Python 2 `\w` on a byte string: `[a-zA-Z0-9_]`. -/
def isWordChar (c : Char) : Bool := c.isAlphanum || c = '_'

/-- `MutationInfo._get_ncbi_accession_type`: match `^\w\w_` and look the
three-character prefix up in the accession table, returning the prefix without
the underscore (`None` on no match or unknown prefix). -/
def getNcbiAccessionType (transcript : List Char) : Option (List Char) :=
  match transcript with
  | a :: b :: u :: _ =>
    if isWordChar a ∧ isWordChar b ∧ u = '_' then
      if [a, b, '_'] ∈ accessionTypeKeys then some [a, b] else none
    else none
  | _ => none

/-- Result of `fuzzy_hgvs_corrector`: `None`, a corrected string, the two-element
list of the ambiguous `/` case (each element itself a corrector result), or a
raised exception. -/
inductive FuzzyRes where
  | raised
  | noneR
  | strR (s : List Char)
  | listR (a b : FuzzyRes)
deriving DecidableEq, Repr

/-- Python `[f(v1), f(v2)]`: an exception raised while computing an element
propagates out of the list construction. -/
def combineFuzzy : FuzzyRes → FuzzyRes → FuzzyRes
  | FuzzyRes.raised, _ => FuzzyRes.raised
  | _, FuzzyRes.raised => FuzzyRes.raised
  | a, b => FuzzyRes.listR a b

/-- `re.search(r'[cg]\.', new_variant)` as a Boolean: the string contains `c.`
or `g.`. -/
def hasRefTypeTag : List Char → Bool
  | [] => false
  | c :: rest =>
    match rest with
    | d :: _ => if (c = 'c' ∨ c = 'g') ∧ d = '.' then true else hasRefTypeTag rest
    | [] => false

/-- Outcome of the leading `if not ':' in new_variant:` block of
`fuzzy_hgvs_corrector` (transcript/ref-type injection). -/
inductive TagRes where
  | retNone
  | retRaise
  | cont (s : List Char)
deriving DecidableEq, Repr

/-- The `if not ':' in new_variant:` block: fail without a transcript; fail when
neither the text nor the argument supplies a reference type; otherwise prepend
`transcript + ':' + ref_type + '.'`.  When the text already carries a `c.`/`g.`
tag but `ref_type` is `None`, the string concatenation with `None` raises a
`TypeError` (`retRaise`). -/
def addTranscriptPart (v : List Char) (t : Option (List Char)) (r : Option Char) : TagRes :=
  if ':' ∈ v then TagRes.cont v
  else
    match t with
    | none => TagRes.retNone
    | some ts =>
      if hasRefTypeTag v = false ∧ r = none then TagRes.retNone
      else
        match r with
        | none => TagRes.retRaise
        | some rc => TagRes.cont (ts ++ ':' :: rc :: '.' :: v)

/-- Python `str.replace('->', '>')` (case 1 of the corrector): leftmost,
non-overlapping replacement. -/
def replaceArrow : List Char → List Char
  | [] => []
  | [c] => [c]
  | c :: d :: rest =>
    if c = '-' ∧ d = '>' then '>' :: replaceArrow rest
    else c :: replaceArrow (d :: rest)

def isACGT (c : Char) : Bool := c = 'A' || c = 'C' || c = 'G' || c = 'T'

/-- Attempt to match `([ACGT])>([ACGT])/([ACGT])` at the head of the string
(case 2 of the corrector); returns the three groups and the remainder. -/
def case2MatchAt (s : List Char) : Option (Char × Char × Char × List Char) :=
  match s with
  | a :: g :: b :: sl :: c :: rest =>
    if isACGT a ∧ g = '>' ∧ sl = '/' ∧ isACGT b ∧ isACGT c then some (a, b, c, rest)
    else none
  | _ => none

/-- `re.search` for the case-2 pattern: is there a match anywhere? -/
def case2Search : List Char → Bool
  | [] => false
  | c :: rest => (case2MatchAt (c :: rest)).isSome || case2Search rest

theorem case2MatchAt_shape (s : List Char) (a b c : Char) (r : List Char)
    (h : case2MatchAt s = some (a, b, c, r)) :
    s = a :: '>' :: b :: '/' :: c :: r ∧ isACGT a ∧ isACGT b ∧ isACGT c := by
  match s with
  | [] => simp [case2MatchAt] at h
  | [x] => simp [case2MatchAt] at h
  | [x, y] => simp [case2MatchAt] at h
  | [x, y, z] => simp [case2MatchAt] at h
  | [x, y, z, w] => simp [case2MatchAt] at h
  | x :: y :: z :: w :: v :: rest =>
    rw [case2MatchAt] at h
    split at h
    · rename_i hc
      obtain ⟨h1, h2, h3, h4, h5⟩ := hc
      simp only [Option.some.injEq, Prod.mk.injEq] at h
      obtain ⟨ha, hb, hcc, hr⟩ := h
      subst ha hb hcc hr h2 h3
      exact ⟨rfl, h1, h4, h5⟩
    · simp at h

/-- `re.sub(r'([ACGT])>([ACGT])/([ACGT])', ...)` keeping either the first
(`\1>\2`) or the second (`\1>\3`) alternate at every non-overlapping match;
scanning resumes after each replaced match. -/
def case2Sub (keepFirst : Bool) (s : List Char) : List Char :=
  match s with
  | a :: g :: b :: sl :: c :: rest =>
    if isACGT a ∧ g = '>' ∧ sl = '/' ∧ isACGT b ∧ isACGT c then
      a :: '>' :: (if keepFirst then b else c) :: case2Sub keepFirst rest
    else
      a :: case2Sub keepFirst (g :: b :: sl :: c :: rest)
  | other => other
termination_by s.length
decreasing_by
  · simp only [List.length_cons]
    omega
  · simp only [List.length_cons]
    omega

/-- Number of `/` characters, the termination measure of the recursive
ambiguity fan-out. -/
def slashCount (s : List Char) : Nat := s.count '/'

theorem replaceArrow_slashCount (s : List Char) : slashCount (replaceArrow s) = slashCount s := by
  unfold slashCount
  induction s using replaceArrow.induct with
  | case1 => rfl
  | case2 c => rfl
  | case3 c d rest hcd ih =>
    obtain ⟨hc, hd⟩ := hcd
    subst hc hd
    rw [replaceArrow, if_pos ⟨rfl, rfl⟩]
    simp [List.count_cons, ih]
  | case4 c d rest hcd ih =>
    rw [replaceArrow, if_neg hcd]
    simp [List.count_cons, ih]

theorem isACGT_ne_slash (c : Char) (h : isACGT c = true) : c ≠ '/' := by
  intro hh
  subst hh
  simp [isACGT] at h

theorem case2Search_short (s : List Char) (h : s.length < 5) : case2Search s = false := by
  match s with
  | [] => rfl
  | [x] => simp [case2Search, case2MatchAt]
  | [x, y] => simp [case2Search, case2MatchAt]
  | [x, y, z] => simp [case2Search, case2MatchAt]
  | [x, y, z, w] => simp [case2Search, case2MatchAt]
  | x :: y :: z :: w :: v :: rest => simp only [List.length_cons] at h; omega

theorem case2Sub_slashCount_aux (k : Bool) (s : List Char) :
    slashCount (case2Sub k s) + (if case2Search s then 1 else 0) ≤ slashCount s := by
  generalize hn : s.length = n
  induction n using Nat.strong_induction_on generalizing s with
  | _ n ih =>
  match s with
  | [] => simp [case2Sub, case2Search, slashCount]
  | [x] => simp [case2Sub, case2Search, case2MatchAt, slashCount]
  | [x, y] => simp [case2Sub, case2Search, case2MatchAt, slashCount]
  | [x, y, z] => simp [case2Sub, case2Search, case2MatchAt, slashCount]
  | [x, y, z, w] => simp [case2Sub, case2Search, case2MatchAt, slashCount]
  | a :: g :: b :: sl :: c :: rest =>
    simp only [List.length_cons] at hn
    by_cases hcond : isACGT a ∧ g = '>' ∧ sl = '/' ∧ isACGT b ∧ isACGT c
    · obtain ⟨ha, hg, hsl, hb, hc⟩ := hcond
      subst hg hsl
      have ihr := ih rest.length (by omega) rest rfl
      rw [case2Sub]
      rw [if_pos ⟨ha, rfl, rfl, hb, hc⟩]
      have hsearch : case2Search (a :: '>' :: b :: '/' :: c :: rest) = true := by
        rw [case2Search, case2MatchAt]
        rw [if_pos ⟨ha, rfl, rfl, hb, hc⟩]
        simp
      rw [hsearch]
      have ha' := isACGT_ne_slash a ha
      have hb' := isACGT_ne_slash b hb
      have hc' := isACGT_ne_slash c hc
      have hpick : (if k then b else c) ≠ '/' := by
        by_cases hk : k
        · simpa [hk] using hb'
        · simpa [hk] using hc'
      simp only [slashCount, List.count_cons] at ihr ⊢
      simp [ha', hb', hc', hpick]
      omega
    · have ihr := ih (g :: b :: sl :: c :: rest).length (by simp; omega) (g :: b :: sl :: c :: rest) rfl
      rw [case2Sub]
      rw [if_neg hcond]
      have hsearch : case2Search (a :: g :: b :: sl :: c :: rest)
          = case2Search (g :: b :: sl :: c :: rest) := by
        rw [case2Search, case2MatchAt]
        rw [if_neg hcond]
        simp
      rw [hsearch]
      have ha2 : a ≠ '/' ∨ a = '/' := (ne_or_eq a '/')
      simp only [slashCount, List.count_cons] at ihr ⊢
      by_cases hx : a = '/'
      · simp [hx] at ihr ⊢
        omega
      · simp [hx] at ihr ⊢
        omega

theorem case2Sub_slashCount (k : Bool) (s : List Char) (h : case2Search s = true) :
    slashCount (case2Sub k s) < slashCount s := by
  have h2 := case2Sub_slashCount_aux k s
  rw [h] at h2
  simp at h2
  omega

theorem length_dropWhile_le (p : Char → Bool) (l : List Char) :
    (l.dropWhile p).length ≤ l.length := by
  induction l with
  | nil => simp
  | cons a l ih =>
    rw [List.dropWhile_cons]
    by_cases h : p a
    · simp only [h, if_true]
      simp
      omega
    · simp [h]

/-- Attempt to match `([\d]+)\(([ACGT]+)>([ACGT]+)\)` at the start of the string
(case 3 of the corrector).  The character classes of adjacent pieces are
disjoint, so greedy maximal munch is exact.  Returns the substitution `\1\2>\3`
and the remaining input. -/
def case3MatchAt (s : List Char) : Option (List Char × List Char) :=
  let g1 := s.takeWhile Char.isDigit
  let r1 := s.dropWhile Char.isDigit
  if g1 = [] then none
  else
    match r1 with
    | '(' :: r2 =>
      let g2 := r2.takeWhile isACGT
      let r3 := r2.dropWhile isACGT
      if g2 = [] then none
      else
        match r3 with
        | '>' :: r4 =>
          let g3 := r4.takeWhile isACGT
          let r5 := r4.dropWhile isACGT
          if g3 = [] then none
          else
            match r5 with
            | ')' :: r6 => some (g1 ++ g2 ++ '>' :: g3, r6)
            | _ => none
        | _ => none
    | _ => none

theorem case3MatchAt_length (s : List Char) (rep r : List Char)
    (h : case3MatchAt s = some (rep, r)) : r.length < s.length := by
  unfold case3MatchAt at h
  simp only at h
  split at h
  · exact absurd h (by simp)
  · rename_i hg1
    split at h
    · rename_i r2 hr1
      split at h
      · exact absurd h (by simp)
      · rename_i hg2
        split at h
        · rename_i r4 hr3
          split at h
          · exact absurd h (by simp)
          · rename_i hg3
            split at h
            · rename_i r6 hr5
              simp only [Option.some.injEq, Prod.mk.injEq] at h
              obtain ⟨hrep, hr⟩ := h
              subst hr
              have l1 : (s.dropWhile Char.isDigit).length ≤ s.length :=
                length_dropWhile_le _ _
              have l2 : (r2.dropWhile isACGT).length ≤ r2.length :=
                length_dropWhile_le _ _
              have l3 : (r4.dropWhile isACGT).length ≤ r4.length :=
                length_dropWhile_le _ _
              have e1 : (s.dropWhile Char.isDigit).length = r2.length + 1 := by
                rw [hr1]
                simp
              have e2 : (r2.dropWhile isACGT).length = r4.length + 1 := by
                rw [hr3]
                simp
              have e3 : (r4.dropWhile isACGT).length = r6.length + 1 := by
                rw [hr5]
                simp
              omega
            · exact absurd h (by simp)
        · exact absurd h (by simp)
    · exact absurd h (by simp)

/-- `re.search` scan for the case-3 pattern. -/
def case3Search (s : List Char) : Bool :=
  match s with
  | [] => false
  | _ :: rest => (case3MatchAt s).isSome || case3Search rest

/-- `re.sub(r'([\d]+)\(([ACGT]+)>([ACGT]+)\)', r'\1\2>\3', ...)`: replace every
non-overlapping match, scanning left to right. -/
def case3Sub (s : List Char) : List Char :=
  match s with
  | [] => []
  | c :: rest =>
    match h3 : case3MatchAt (c :: rest) with
    | some (rep, rest2) => rep ++ case3Sub rest2
    | none => c :: case3Sub rest
termination_by s.length
decreasing_by
  · exact case3MatchAt_length _ _ _ h3
  · simp

/-- Case 3 of the corrector: the parenthesis rewriting is applied only when the
search pattern matched (`re.sub` is the identity otherwise anyway). -/
def case3Step (s : List Char) : List Char :=
  if case3Search s then case3Sub s else s

def isDashDigit (c : Char) : Bool := c = '-' || c.isDigit

/-- Attempt to match `([\-\d]+)([ACGT]+)>([ACGT]+)` at the start of the string
(case 4 of the corrector); returns the three groups and the remaining input. -/
def case4MatchAt (s : List Char) :
    Option (List Char × List Char × List Char × List Char) :=
  let g1 := s.takeWhile isDashDigit
  let r1 := s.dropWhile isDashDigit
  if g1 = [] then none
  else
    let g2 := r1.takeWhile isACGT
    let r2 := r1.dropWhile isACGT
    if g2 = [] then none
    else
      match r2 with
      | '>' :: r3 =>
        let g3 := r3.takeWhile isACGT
        let r4 := r3.dropWhile isACGT
        if g3 = [] then none else some (g1, g2, g3, r4)
      | _ => none

theorem case4MatchAt_length (s : List Char) (g1 g2 g3 r : List Char)
    (h : case4MatchAt s = some (g1, g2, g3, r)) : r.length < s.length := by
  unfold case4MatchAt at h
  simp only at h
  split at h
  · exact absurd h (by simp)
  · rename_i hg1
    split at h
    · exact absurd h (by simp)
    · rename_i hg2
      split at h
      · rename_i r3 hr2
        split at h
        · exact absurd h (by simp)
        · rename_i hg3
          simp only [Option.some.injEq, Prod.mk.injEq] at h
          obtain ⟨_, _, _, hr⟩ := h
          subst hr
          have l1 : (s.dropWhile isDashDigit).length ≤ s.length :=
            length_dropWhile_le _ _
          have l3 : (r3.dropWhile isACGT).length ≤ r3.length :=
            length_dropWhile_le _ _
          have e2 : ((s.dropWhile isDashDigit).dropWhile isACGT).length = r3.length + 1 := by
            rw [hr2]
            simp
          have l2 : ((s.dropWhile isDashDigit).dropWhile isACGT).length
              ≤ (s.dropWhile isDashDigit).length := length_dropWhile_le _ _
          have hne : s.takeWhile isDashDigit ≠ [] := hg1
          have hlen1 : (s.dropWhile isDashDigit).length < s.length := by
            match s with
            | [] => exact absurd rfl hne
            | a :: srest =>
              rw [List.dropWhile_cons]
              by_cases ha : isDashDigit a
              · simp only [ha, if_true]
                have := length_dropWhile_le isDashDigit srest
                simp
                omega
              · rw [List.takeWhile_cons] at hne
                simp [ha] at hne
          omega
      · exact absurd h (by simp)

/-- `re.search` scan for the case-4 pattern: leftmost match, returning the
three captured groups. -/
def case4Search (s : List Char) : Option (List Char × List Char × List Char) :=
  match s with
  | [] => none
  | _ :: rest =>
    match case4MatchAt s with
    | some (g1, g2, g3, _) => some (g1, g2, g3)
    | none => case4Search rest

/-- `re.sub` for the case-4 pattern with a constant replacement string. -/
def case4SubAll (rep : List Char) (s : List Char) : List Char :=
  match s with
  | [] => []
  | c :: rest =>
    match h4 : case4MatchAt (c :: rest) with
    | some (_, _, _, rest2) => rep ++ case4SubAll rep rest2
    | none => c :: case4SubAll rep rest
termination_by s.length
decreasing_by
  · exact case4MatchAt_length _ _ _ _ _ h4
  · simp

/-- Python `int()` on a string drawn from the class `[\-\d]+`: an optional
single leading minus followed by at least one digit; anything else raises
`ValueError` (`none`). -/
def pyInt (s : List Char) : Option Int :=
  match s with
  | '-' :: rest =>
    if rest ≠ [] ∧ rest.all Char.isDigit then
      some (-(rest.foldl (fun acc c => acc * 10 + ((c.toNat : Int) - ('0'.toNat : Int))) 0))
    else none
  | _ =>
    if s ≠ [] ∧ s.all Char.isDigit then
      some (s.foldl (fun acc c => acc * 10 + ((c.toNat : Int) - ('0'.toNat : Int))) 0)
    else none

/-- The replacement string of case 4:
`str(int(g1)) + '_' + str(int(g1) + len(g2) - 1) + 'delins' + g3`. -/
def buildDelins (n : Int) (g2 g3 : List Char) : List Char :=
  (toString n).data ++ '_' :: (toString (n + (g2.length : Int) - 1)).data
    ++ "delins".data ++ g3

/-- Termination measure of the recursive ambiguity fan-out: slashes in the
variant plus (when a transcript is supplied and may be prepended) slashes in
the transcript plus one. -/
def fuzzyMeasure (v : List Char) (t : Option (List Char)) : Nat :=
  slashCount v + (match t with | some ts => slashCount ts + 1 | none => 0)

theorem addTranscriptPart_cont_slash (v : List Char) (t : Option (List Char))
    (r : Option Char) (nv : List Char) (h : addTranscriptPart v t r = TagRes.cont nv) :
    slashCount nv ≤ fuzzyMeasure v t := by
  unfold addTranscriptPart at h
  split at h
  · injection h with h1
    subst h1
    unfold fuzzyMeasure
    omega
  · match t with
    | none => exact absurd h (by simp)
    | some ts =>
      simp only at h
      split at h
      · exact absurd h (by simp)
      · match r with
        | none => exact absurd h (by simp)
        | some rc =>
          simp only [TagRes.cont.injEq] at h
          subst h
          unfold fuzzyMeasure slashCount
          simp only [List.count_append, List.count_cons]
          by_cases hrc : rc = '/'
          · simp [hrc]
            omega
          · simp [hrc]
            omega

/-- Cases 3 and 4 of the corrector applied after the ambiguity fan-out did not
trigger: strip parentheses around a substitution, then rewrite a multi-base
substitution as a `delins` over the matched span (Python `int()` may raise
`ValueError` on an ill-formed position group). -/
def case34Step (nv1 : List Char) : FuzzyRes :=
  match case4Search (case3Step nv1) with
  | none => FuzzyRes.strR (case3Step nv1)
  | some (g1, g2, g3) =>
    if 1 < g2.length ∨ 1 < g3.length then
      match pyInt g1 with
      | none => FuzzyRes.raised
      | some n => FuzzyRes.strR (case4SubAll (buildDelins n g2 g3) (case3Step nv1))
    else FuzzyRes.strR (case3Step nv1)

/-- `MutationInfo.fuzzy_hgvs_corrector(variant, transcript, ref_type)`.
Order of the source: validate `ref_type`; inject transcript / reference-type
tag when the `:` separator is missing; replace `->` by `>` (case 1); fan out on
the two-alternate `/` pattern, correcting each half recursively (case 2);
strip parentheses around a substitution (case 3); rewrite a multi-base
substitution as `delins` (case 4). -/
def fuzzy_hgvs_corrector (variant : List Char) (transcript : Option (List Char))
    (ref_type : Option Char) : FuzzyRes :=
  if ¬ (ref_type = none ∨ ref_type = some 'c' ∨ ref_type = some 'g') then FuzzyRes.raised
  else
    match h1 : addTranscriptPart variant transcript ref_type with
    | TagRes.retNone => FuzzyRes.noneR
    | TagRes.retRaise => FuzzyRes.raised
    | TagRes.cont nv =>
      if h2 : case2Search (replaceArrow nv) = true then
        combineFuzzy
          (fuzzy_hgvs_corrector (case2Sub true (replaceArrow nv)) none none)
          (fuzzy_hgvs_corrector (case2Sub false (replaceArrow nv)) none none)
      else case34Step (replaceArrow nv)
termination_by fuzzyMeasure variant transcript
decreasing_by
  · have ha := addTranscriptPart_cont_slash variant transcript ref_type nv h1
    have hb := case2Sub_slashCount true (replaceArrow nv) h2
    have hc := replaceArrow_slashCount nv
    have he : fuzzyMeasure (case2Sub true (replaceArrow nv)) none
        = slashCount (case2Sub true (replaceArrow nv)) := rfl
    rw [he]
    omega
  · have ha := addTranscriptPart_cont_slash variant transcript ref_type nv h1
    have hb := case2Sub_slashCount false (replaceArrow nv) h2
    have hc := replaceArrow_slashCount nv
    have he : fuzzyMeasure (case2Sub false (replaceArrow nv)) none
        = slashCount (case2Sub false (replaceArrow nv)) := rfl
    rw [he]
    omega

/-- One annotated feature of a genbank record as used by
`_get_sequence_features_from_genbank`: its `type`, its `qualifiers['gene']`
list, its location and its `sub_features` locations. -/
structure Feature where
  ftype : List Char
  genes : List (List Char)
  loc : Loc
  subs : List Loc
deriving DecidableEq, Repr

/-- One genbank record (`SeqIO.parse` result). -/
structure GRecord where
  features : List Feature
deriving DecidableEq, Repr

/-- `list(set(...))` of `get_feature_genes`: duplicate gene names removed (the
set order is irrelevant to the callers, which use only length, membership and
the unique element of a singleton). -/
def dedupGenes (l : List (List Char)) : List (List Char) :=
  match l with
  | [] => []
  | x :: rest => x :: dedupGenes (rest.filter (fun y => y ≠ x))
termination_by l.length
decreasing_by
  have := List.length_filter_le (fun y => y ≠ x) rest
  simp only [List.length_cons]
  omega

/-- Outcome of the inner `select_gene` helper: the filtered feature list, the
explicit `None` failure (ambiguous gene, no hint), or a raised exception
(`selected_gene` referenced before assignment when the hint is absent from the
record's genes). -/
inductive SelGeneRes where
  | okG (fs : List Feature)
  | noneG
  | raisedG
deriving DecidableEq, Repr

/-- `select_gene(features, genes)` of `_get_sequence_features_from_genbank`
(with the enclosing `gene` hint argument). -/
def select_gene (gene : Option (List Char)) (features : List Feature)
    (genes : List (List Char)) : SelGeneRes :=
  match genes, gene with
  | [g0], _ => SelGeneRes.okG (features.filter (fun f => g0 ∈ f.genes))
  | _, none => SelGeneRes.noneG
  | gs, some g =>
    if g ∈ gs then SelGeneRes.okG (features.filter (fun f => g ∈ f.genes))
    else SelGeneRes.raisedG

/-- Outcome of `select_features(record, f_type)`: a position list, the `None`
failure propagated from `select_gene`, or a raised exception (the
`assert len(features) == 1` of `get_positions`, or `select_gene`'s raise). -/
inductive SelPosRes where
  | okF (ps : List Loc)
  | noneF
  | raisedF
deriving DecidableEq, Repr

/-- `select_features(record, f_type)`: filter features by type (empty list when
none), flatten and dedup their gene qualifiers, run `select_gene`, then
`get_positions` (assert exactly one feature; its location, or the locations of
its sub-features when present). -/
def selectFeatures (gene : Option (List Char)) (r : GRecord) (ftype : List Char) : SelPosRes :=
  let all_f := r.features.filter (fun f => f.ftype = ftype)
  if all_f = [] then SelPosRes.okF []
  else
    let all_genes := dedupGenes (all_f.map (fun f => f.genes)).flatten
    match select_gene gene all_f all_genes with
    | SelGeneRes.noneG => SelPosRes.noneF
    | SelGeneRes.raisedG => SelPosRes.raisedF
    | SelGeneRes.okG fs =>
      match fs with
      | [f] => SelPosRes.okF (if f.subs = [] then [f.loc] else f.subs)
      | _ => SelPosRes.raisedF

/-- Overall outcome of `_get_sequence_features_from_genbank`: a coding-to-
genomic mapper built from an interval list, the `None` return (only for a
record count different from one), or a raised exception. -/
inductive LocOutcome where
  | mapper (ps : List Loc)
  | noneO
  | raisedO
deriving DecidableEq, Repr

/-- `_get_sequence_features_from_genbank(filename, gene)` over the parsed
records.  Note: when the CDS selection fails with `None` (ambiguous gene) or
yields an empty list, the code still calls `make_ret_function(mRNA_positions)`,
which raises (`TypeError` on `None`, `IndexError` on `[]`) instead of
returning `None`. -/
def genbankLocator (records : List GRecord) (gene : Option (List Char)) : LocOutcome :=
  match records with
  | [r] =>
    match selectFeatures gene r "CDS".data, selectFeatures gene r "mRNA".data with
    | SelPosRes.raisedF, _ => LocOutcome.raisedO
    | _, SelPosRes.raisedF => LocOutcome.raisedO
    | SelPosRes.okF (p :: ps), _ => LocOutcome.mapper (p :: ps)
    | _, SelPosRes.okF (p :: ps) => LocOutcome.mapper (p :: ps)
    | _, _ => LocOutcome.raisedO
  | _ => LocOutcome.noneO

/-- The five working values extracted by `get_elements_from_hgvs` from a parsed
variant: accession, coordinate type, 1-based start position, declared
reference allele, declared alternate allele (absent for some edit types). -/
structure Elements where
  transcript : List Char
  type : List Char
  position : Int
  ref : Option (List Char)
  alt : Option (List Char)
deriving DecidableEq, Repr

/-- Result of the pyhgvs conversion `counsyl_hgvs.hgvs_to_vcf`: a VCF tuple or
one of the three exception kinds caught by `get_info`. -/
inductive CounsylRes where
  | ok (chrom : List Char) (offset : Int) (ref alt : List Char)
  | keyError
  | valueError
  | indexError
deriving DecidableEq, Repr

/-- One parsed hit row of `_parse_blat_results_filename`. -/
structure BlatHit where
  identity : List Char
  span : List Char
  chro : List Char
  details_url : List Char
deriving DecidableEq, Repr

/-- Result of a full `get_info` resolution: the `None` return, a single record,
a list of sub-results, an uncaught exception, or exhaustion of the modelling
fuel (recursion depth). -/
inductive GIRes where
  | noneR
  | record (r : RetDict)
  | list (l : List GIRes)
  | raised (msg : String)
  | fuelOut
deriving Repr

/-- A Python value passed to `get_info`: a str, a unicode string, a list, or a
value of any other type (carrying its type name for the log). -/
inductive Variant where
  | str (s : List Char)
  | unicode (s : List Char)
  | list (l : List Variant)
  | other (typeName : List Char)
deriving Repr

/-- The keyword arguments threaded through `get_info` (`**kwargs`): consumed by
`fuzzy_hgvs_corrector` (`transcript`, `ref_type`), `_search_mutalyzer`
(`gene`) and the genbank feature selection (`gene`). -/
structure KW where
  transcript : Option (List Char)
  ref_type : Option Char
  gene : Option (List Char)
deriving DecidableEq, Repr

/-- Empty `**kwargs` (the list fan-outs drop the keyword arguments). -/
def KW.empty : KW := ⟨none, none, none⟩

/-- Oracle environment: the responses of every external collaborator consumed
by one `get_info` resolution, in the order the source consumes them. -/
structure Env where
  genome : List Char
  parse : List Char → Option Elements
  ucscRows : List UcscRow
  vep : Option RetDict
  mutalyzer : List Char → Option (List Char) → Option (List Char)
  splign : Option Elements
  blatMethod : Option Elements
  genewise : Option Elements
  ncSearch : Option (List Char × List Char)
  counsyl : CounsylRes
  lovd : Option (List Char × Option Int × List Char)
  fasta : List Char
  genbankRecords : List GRecord
  blatHits : List BlatHit
  alignResult : Option (Int × Char)

/-- The `for biocommons_vm_name, biocommons_vm_method in [...]` loop of
`get_info`: try each mapper in order, adopt the first success (`break`), keep
the original elements when every method fails. -/
def biocommonsLoop (e : Elements) : List (Option Elements) → Elements
  | [] => e
  | none :: rest => biocommonsLoop e rest
  | some r :: _ => r

/-- The coding-to-genomic mapping step of `get_info` (lines 359-381): only a
`c` variant is mapped, through `splign`, then `blat`, then `genewise`. -/
def mapWithBiocommons (env : Env) (e : Elements) : Elements :=
  if e.type = "c".data then biocommonsLoop e [env.splign, env.blatMethod, env.genewise]
  else e

/-- Lift an optional allele string into the stored field value. -/
def optPy : Option (List Char) → PyVal
  | none => PyVal.noneV
  | some s => PyVal.strV s

/-- Final step of the blat path (lines 530-537): on the minus strand both
alleles are complemented by `inverse` (which may raise `KeyError`) before the
`BLAT` record is built. -/
def blatFinalize (genome chrom : List Char) (gpos : Int)
    (ref alt : Option (List Char)) (dir : Char) : GIRes :=
  if dir = '-' then
    match inverse ref with
    | none => GIRes.raised "KeyError"
    | some r2 =>
      match inverse alt with
      | none => GIRes.raised "KeyError"
      | some a2 =>
        GIRes.record ⟨chrom, some gpos, optPy r2, optPy a2, genome, "BLAT".data⟩
  else GIRes.record ⟨chrom, some gpos, optPy ref, optPy alt, genome, "BLAT".data⟩

/-- The blat search tail of `get_info` (lines 481-537): first hit of the parsed
blat results (`blat[0]`, `IndexError` when empty), then the parsed alignment
(`_find_alignment_position_in_blat_result`, whose failure modes raise), then
strand-dependent allele inversion. -/
def blatPart (env : Env) (e : Elements) : GIRes :=
  match env.blatHits with
  | [] => GIRes.raised "IndexError"
  | hit :: _ =>
    match env.alignResult with
    | none => GIRes.raised "blat alignment"
    | some (gpos, dir) => blatFinalize env.genome hit.chro gpos e.ref e.alt dir

/-- Lines 450-477 of `get_info`, after the genomic position is fixed: the log
line indexes `fasta[hgvs_position-1]` (`IndexError` when out of range), the
chunk window is cut, the log line indexes `fasta_chunk[relative_pos-1]`, and
the assert compares the two bases. -/
def afterPos (env : Env) (e : Elements) (pos : Int) : GIRes :=
  match pyIndex env.fasta (pos - 1) with
  | none => GIRes.raised "IndexError"
  | some base =>
    let cb := chunkBounds (env.fasta.length : Int) pos
    let fasta_chunk := pySlice env.fasta cb.1 cb.2.1
    match pyIndex fasta_chunk (cb.2.2 - 1) with
    | none => GIRes.raised "IndexError"
    | some chunkBase =>
      if chunkBase = base then blatPart env e
      else GIRes.raised "AssertionError"

/-- Lines 418-448 of `get_info`: fetch the fasta, then for a `c` variant build
the genbank coding-to-genomic mapper and apply it (`None` from the builder is
then called, raising `TypeError`; exceptions inside the builder propagate);
a `g` variant passes through; any other type returns `None`. -/
def fastaPart (env : Env) (kw : KW) (e : Elements) : GIRes :=
  if e.type = "c".data then
    match genbankLocator env.genbankRecords kw.gene with
    | LocOutcome.mapper ps => afterPos env e (ret_f ps e.position)
    | LocOutcome.noneO => GIRes.raised "TypeError"
    | LocOutcome.raisedO => GIRes.raised "genbank"
  else if e.type = "g".data then afterPos env e e.position
  else GIRes.noneR

/-- Lines 359-537 of `get_info`, from a successfully parsed variant to the end:
the biocommons coordinate-mapping loop, the `NC` reference-assembly
short-circuit, the pyhgvs conversion, the LOVD lookup, and the fasta/blat
path. -/
def afterParse (env : Env) (kw : KW) (e : Elements) : GIRes :=
  let e1 := mapWithBiocommons env e
  if getNcbiAccessionType e1.transcript = some "NC".data then
    match env.ncSearch with
    | none => GIRes.noneR
    | some (chromName, assembly) =>
      GIRes.record ⟨chromName, some e1.position, optPy e1.ref, optPy e1.alt,
                    assembly, "NC_transcript".data⟩
  else
    match env.counsyl with
    | CounsylRes.ok c o rf al =>
      GIRes.record ⟨c, some o, PyVal.strV rf, PyVal.strV al, env.genome,
                    "counsyl_hgvs_to_vcf".data⟩
    | _ =>
      match env.lovd with
      | some (lchrom, lpos1, lgenome) =>
        GIRes.record ⟨lchrom, lpos1, optPy e1.ref, optPy e1.alt, lgenome, "LOVD".data⟩
      | none => fastaPart env kw e1

/-- Conversion of a corrector result to a `get_info` argument for the ambiguity
fan-out `[self.get_info(v) for v in new_variant]` (a `None` element is an
unknown-type argument; a nested raise never appears here because it would have
propagated out of the corrector already). -/
def fuzzyToVariant : FuzzyRes → Variant
  | FuzzyRes.strR s => Variant.str s
  | FuzzyRes.noneR => Variant.other "NoneType".data
  | FuzzyRes.listR a b => Variant.list [fuzzyToVariant a, fuzzyToVariant b]
  | FuzzyRes.raised => Variant.other "raised".data

/-- Python list comprehension over sub-results: an abnormal element
(exception/fuel) propagates, otherwise the results are collected in order. -/
def collectList : List GIRes → GIRes
  | [] => GIRes.list []
  | r :: rs =>
    match r with
    | GIRes.raised m => GIRes.raised m
    | GIRes.fuelOut => GIRes.fuelOut
    | ok =>
      match collectList rs with
      | GIRes.list l => GIRes.list (ok :: l)
      | bad => bad

/-- The Mutalyzer fallback of `get_info` (lines 343-353): on success the whole
pipeline re-enters with the new genomic description, on failure the resolution
returns `None`. -/
def mutalyzerFallback (env : Env) (recurse : KW → Variant → GIRes) (kw : KW)
    (variant : List Char) : GIRes :=
  match env.mutalyzer variant kw.gene with
  | none => GIRes.noneR
  | some nv => recurse kw (Variant.str nv)

/-- The HGVS part of `get_info` (lines 332-537): strict parse, fuzzy correction
retry (a corrected list fans out recursively, dropping the keyword arguments),
Mutalyzer fallback, then the parsed-variant pipeline. -/
def hgvsBranch (env : Env) (recurse : KW → Variant → GIRes) (kw : KW)
    (variant : List Char) : GIRes :=
  match env.parse variant with
  | some h => afterParse env kw h
  | none =>
    match fuzzy_hgvs_corrector variant kw.transcript kw.ref_type with
    | FuzzyRes.raised => GIRes.raised "ValueError"
    | FuzzyRes.listR a b =>
      collectList ([a, b].map (fun fr => recurse KW.empty (fuzzyToVariant fr)))
    | FuzzyRes.strR nv =>
      match env.parse nv with
      | some h => afterParse env kw h
      | none => mutalyzerFallback env recurse kw nv
    | FuzzyRes.noneR => mutalyzerFallback env recurse kw variant

/-- `re.match(r'rs[\d]+', variant)`: the string starts with `rs` and a digit. -/
def isRs : List Char → Bool
  | 'r' :: 's' :: c :: _ => c.isDigit
  | _ => false

/-- `MutationInfo.get_info(variant, **kwargs)` with explicit recursion fuel
(the Python recursion via Mutalyzer re-entry, unicode conversion and list
fan-out is unbounded).  Note the `rs` branch: when the UCSC lookup result is
truthy the code falls through to the HGVS parsing section without returning
it; only a falsy (empty) result routes to VEP. -/
def get_info (env : Env) : Nat → KW → Variant → GIRes
  | 0, _, _ => GIRes.fuelOut
  | Nat.succ fuel, kw, v =>
    match v with
    | Variant.list l => collectList (l.map (fun x => get_info env fuel KW.empty x))
    | Variant.unicode s => get_info env fuel kw (Variant.str (pyStrip s))
    | Variant.other _ => GIRes.noneR
    | Variant.str s =>
      if isRs s then
        match search_ucsc env.genome env.ucscRows with
        | none => GIRes.raised "ucsc"
        | some res =>
          if ucscTruthy res then hgvsBranch env (get_info env fuel) kw s
          else
            match env.vep with
            | some r => GIRes.record r
            | none => GIRes.noneR
      else hgvsBranch env (get_info env fuel) kw s

theorem pyIndex_pySlice (s : List Char) (a b i : Int) (ha : 0 ≤ a) (hi : 0 ≤ i)
    (hab : a + i < b) (hb : b ≤ (s.length : Int)) :
    pyIndex (pySlice s a b) i = pyIndex s (a + i) := by
  have hslice : pySlice s a b = (s.take b.toNat).drop a.toNat := by
    simp only [pySlice]
    rw [if_neg (by omega : ¬ a < 0), if_neg (by omega : ¬ b < 0)]
    rw [(by omega : max 0 (min (s.length : Int) a) = a)]
    rw [(by omega : max 0 (min (s.length : Int) b) = b)]
  rw [hslice]
  have hlen : ((s.take b.toNat).drop a.toNat).length = b.toNat - a.toNat := by
    simp only [List.length_drop, List.length_take]
    omega
  simp only [pyIndex]
  rw [if_neg (by omega : ¬ i < 0), if_neg (by omega : ¬ a + i < 0)]
  rw [if_pos (by rw [hlen]; omega : 0 ≤ i ∧ i < (((s.take b.toNat).drop a.toNat).length : Int))]
  rw [if_pos (by omega : 0 ≤ a + i ∧ a + i < (s.length : Int))]
  rw [List.get?_drop]
  rw [List.get?_take (by omega : a.toNat + i.toNat < b.toNat)]
  rw [(by omega : a.toNat + i.toNat = (a + i).toNat)]

/-- C2: for every reference sequence and every 1-based position inside it, the
chunk window cut by `get_info` (margin 20000, clipped to the sequence
boundary, relative position set to the original position when the left margin
is clipped and to the margin otherwise) satisfies
`fasta_chunk[relative_pos - 1] == fasta[hgvs_position - 1]`, and the right-hand
side is a real base (no `IndexError`), so the guarding assert never fails. -/
theorem chunk_invariant (fasta : List Char) (pos : Int)
    (h1 : 1 ≤ pos) (h2 : pos ≤ (fasta.length : Int)) :
    pyIndex
        (pySlice fasta (chunkBounds (fasta.length : Int) pos).1
          (chunkBounds (fasta.length : Int) pos).2.1)
        ((chunkBounds (fasta.length : Int) pos).2.2 - 1)
      = pyIndex fasta (pos - 1)
    ∧ (pyIndex fasta (pos - 1)).isSome = true := by
  have hm : blat_margin = 20000 := rfl
  constructor
  · simp only [chunkBounds]
    have hce_le : (if pos + blat_margin > (fasta.length : Int) then (fasta.length : Int)
        else pos + blat_margin) ≤ (fasta.length : Int) := by
      split <;> omega
    have hce_gt : pos - 1 <
        (if pos + blat_margin > (fasta.length : Int) then (fasta.length : Int)
          else pos + blat_margin) := by
      split <;> omega
    by_cases hcase : pos - blat_margin < 0
    · rw [if_pos hcase]
      have := pyIndex_pySlice fasta 0
        (if pos + blat_margin > (fasta.length : Int) then (fasta.length : Int)
          else pos + blat_margin)
        (pos - 1) (by omega) (by omega) (by omega) hce_le
      rw [(by ring : (0 : Int) + (pos - 1) = pos - 1)] at this
      exact this
    · rw [if_neg hcase]
      have := pyIndex_pySlice fasta (pos - blat_margin)
        (if pos + blat_margin > (fasta.length : Int) then (fasta.length : Int)
          else pos + blat_margin)
        (blat_margin - 1) (by omega) (by omega) (by omega) hce_le
      rw [(by ring : pos - blat_margin + (blat_margin - 1) = pos - 1)] at this
      exact this
  · simp only [pyIndex]
    rw [if_neg (by omega : ¬ pos - 1 < 0)]
    rw [if_pos (by omega : 0 ≤ pos - 1 ∧ pos - 1 < (fasta.length : Int))]
    rw [Option.isSome_iff_ne_none]
    intro hn
    rw [List.get?_eq_none] at hn
    omega

/-- Witness: the chunk invariant applied to the sequence `ACGT` at position 2
(both hypotheses discharged, both sides evaluating to the base `C`). -/
theorem chunk_invariant_witness :
    pyIndex
        (pySlice "ACGT".data (chunkBounds ("ACGT".data.length : Int) 2).1
          (chunkBounds ("ACGT".data.length : Int) 2).2.1)
        ((chunkBounds ("ACGT".data.length : Int) 2).2.2 - 1)
      = pyIndex "ACGT".data (2 - 1)
    ∧ pyIndex "ACGT".data (2 - 1) = some 'C' := by
  constructor
  · exact (chunk_invariant "ACGT".data 2 (by norm_num) (by norm_num)).1
  · rfl

theorem cumLen_nil : cumLen [] = 0 := rfl

theorem cumLen_cons (P : Loc) (l : List Loc) :
    cumLen (P :: l) = (P.stop - P.start) + cumLen l := by
  simp [cumLen]

theorem cumLen_nonneg (l : List Loc) (h : ∀ P ∈ l, P.start ≤ P.stop) : 0 ≤ cumLen l := by
  induction l with
  | nil => simp [cumLen]
  | cons P rest ih =>
    rw [cumLen_cons]
    have h1 := h P (by simp)
    have h2 := ih (fun Q hQ => h Q (by simp [hQ]))
    omega

theorem retWalk_cover (lastEnd c_pos : Int) (l : List Loc) :
    ∀ (prev : Int) (i : Nat) (hi : i < l.length),
      prev < c_pos →
      c_pos ≤ prev + cumLen (l.take (i + 1)) →
      (∀ j, j < i → prev + cumLen (l.take (j + 1)) < c_pos) →
      retWalk lastEnd c_pos l prev
        = (l.get ⟨i, hi⟩).start + c_pos - (prev + cumLen (l.take i)) := by
  induction l with
  | nil =>
    intro prev i hi _ _ _
    exact absurd hi (by simp)
  | cons P rest ih =>
    intro prev i hi hlt hcov hmin
    match i with
    | 0 =>
      rw [List.take_succ_cons, List.take_zero, cumLen_cons, cumLen_nil] at hcov
      simp only [retWalk]
      rw [if_pos ⟨le_of_lt hlt, by omega⟩]
      simp only [List.get, List.take_zero, cumLen_nil]
      ring
    | Nat.succ i2 =>
      have h0 := hmin 0 (Nat.succ_pos i2)
      rw [List.take_succ_cons, List.take_zero, cumLen_cons, cumLen_nil] at h0
      simp only [retWalk]
      rw [if_neg (by omega : ¬ (prev ≤ c_pos ∧ c_pos ≤ prev + (P.stop - P.start)))]
      have hi2 : i2 < rest.length := by
        simp only [List.length_cons] at hi
        omega
      have hcov2 : c_pos ≤ (prev + (P.stop - P.start)) + cumLen (rest.take (i2 + 1)) := by
        rw [List.take_succ_cons, cumLen_cons] at hcov
        omega
      have hmin2 : ∀ j, j < i2 →
          (prev + (P.stop - P.start)) + cumLen (rest.take (j + 1)) < c_pos := by
        intro j hj
        have hj2 := hmin (j + 1) (by omega)
        rw [List.take_succ_cons, cumLen_cons] at hj2
        omega
      rw [ih (prev + (P.stop - P.start)) i2 hi2 (by omega) hcov2 hmin2]
      rw [List.take_succ_cons, cumLen_cons]
      simp only [List.get]
      ring

theorem retWalk_past (lastEnd c_pos : Int) (l : List Loc)
    (hnn : ∀ P ∈ l, P.start ≤ P.stop) :
    ∀ prev : Int, prev < c_pos → prev + cumLen l < c_pos →
      retWalk lastEnd c_pos l prev = lastEnd + c_pos - (prev + cumLen l) := by
  induction l with
  | nil =>
    intro prev _ _
    simp only [retWalk, cumLen_nil]
    ring
  | cons P rest ih =>
    intro prev hlt htot
    rw [cumLen_cons] at htot
    have hrest : 0 ≤ cumLen rest := cumLen_nonneg rest (fun Q hQ => hnn Q (by simp [hQ]))
    simp only [retWalk]
    rw [if_neg (by omega : ¬ (prev ≤ c_pos ∧ c_pos ≤ prev + (P.stop - P.start)))]
    rw [ih (fun Q hQ => hnn Q (by simp [hQ])) (prev + (P.stop - P.start)) (by omega) (by omega)]
    rw [cumLen_cons]
    ring

/-- C6: the mapping function built by the Gene Feature Locator from an ordered
interval list maps every coding offset at most 0 linearly backward from the
first interval's 1-based start; maps every offset at least 1 by walking the
intervals in order, returning interval start plus remaining offset at the
first interval whose cumulative length covers the offset; and for offsets
beyond the total accumulated length (for well-formed intervals) returns the
last interval's end plus the remaining offset. -/
theorem ret_f_characterisation (CDS : List Loc) (c_pos : Int) (hne : CDS ≠ []) :
    (c_pos ≤ 0 → ret_f CDS c_pos = (CDS.head hne).start + 1 + c_pos)
    ∧ (∀ i, ∀ hi : i < CDS.length, 1 ≤ c_pos →
        c_pos ≤ cumLen (CDS.take (i + 1)) →
        (∀ j, j < i → cumLen (CDS.take (j + 1)) < c_pos) →
        ret_f CDS c_pos = (CDS.get ⟨i, hi⟩).start + c_pos - cumLen (CDS.take i))
    ∧ ((∀ P ∈ CDS, P.start ≤ P.stop) → 1 ≤ c_pos → cumLen CDS < c_pos →
        ret_f CDS c_pos = (CDS.getLast hne).stop + c_pos - cumLen CDS) := by
  have hheadD : CDS.headD ⟨0, 0, 0⟩ = CDS.head hne := by
    match CDS with
    | [] => exact absurd rfl hne
    | P :: rest => rfl
  refine ⟨?_, ?_, ?_⟩
  · intro h0
    simp only [ret_f]
    rw [if_pos (by omega : c_pos < 1), hheadD]
  · intro i hi h1 hcov hmin
    simp only [ret_f]
    rw [if_neg (by omega : ¬ c_pos < 1)]
    have hres := retWalk_cover ((CDS.getLastD ⟨0, 0, 0⟩).stop) c_pos CDS 0 i hi
      (by omega) (by omega)
      (by intro j hj; have := hmin j hj; omega)
    rw [hres]
    ring
  · intro hnn h1 htot
    simp only [ret_f]
    rw [if_neg (by omega : ¬ c_pos < 1)]
    have hres := retWalk_past ((CDS.getLastD ⟨0, 0, 0⟩).stop) c_pos CDS hnn 0
      (by omega) (by omega)
    rw [hres]
    have hlast : CDS.getLastD ⟨0, 0, 0⟩ = CDS.getLast hne := by
      rw [List.getLastD_eq_getLast?, List.getLast?_eq_getLast CDS hne]
      rfl
    rw [hlast]
    ring

/-- Witness: the three branches of the mapper characterisation evaluated on the
concrete interval list `[(10,15,1), (100,108,1)]`: a UTR offset, an offset in
the second interval, and an offset past the total length. -/
theorem ret_f_characterisation_witness :
    ret_f [⟨10, 15, 1⟩, ⟨100, 108, 1⟩] (-2) = 9
    ∧ ret_f [⟨10, 15, 1⟩, ⟨100, 108, 1⟩] 7 = 102
    ∧ ret_f [⟨10, 15, 1⟩, ⟨100, 108, 1⟩] 20 = 115 := by
  refine ⟨?_, ?_, ?_⟩
  · exact ((ret_f_characterisation [⟨10, 15, 1⟩, ⟨100, 108, 1⟩] (-2) (by simp)).1
      (by norm_num)).trans (by norm_num)
  · refine ((ret_f_characterisation [⟨10, 15, 1⟩, ⟨100, 108, 1⟩] 7 (by simp)).2.1 1
      (by norm_num) (by norm_num) (by decide) ?_).trans (by decide)
    intro j hj
    have : j = 0 := by omega
    subst this
    decide
  · exact ((ret_f_characterisation [⟨10, 15, 1⟩, ⟨100, 108, 1⟩] 20 (by simp)).2.2
      (by decide) (by norm_num) (by decide)).trans (by decide)

theorem inverter_acgt (c : Char) (h : c = 'A' ∨ c = 'C' ∨ c = 'G' ∨ c = 'T') :
    ∃ d, inverter (Char.toUpper c) = some d
      ∧ (d = 'A' ∨ d = 'C' ∨ d = 'G' ∨ d = 'T')
      ∧ inverter (Char.toUpper d) = some c := by
  rcases h with h | h | h | h <;> subst h
  · exact ⟨'T', by decide, by decide, by decide⟩
  · exact ⟨'G', by decide, by decide, by decide⟩
  · exact ⟨'C', by decide, by decide, by decide⟩
  · exact ⟨'A', by decide, by decide, by decide⟩

theorem mapInverter_roundtrip (s : List Char)
    (h : ∀ c ∈ s, c = 'A' ∨ c = 'C' ∨ c = 'G' ∨ c = 'T') :
    ∃ t, mapInverter (s.map Char.toUpper) = some t
      ∧ (∀ c ∈ t, c = 'A' ∨ c = 'C' ∨ c = 'G' ∨ c = 'T')
      ∧ mapInverter (t.map Char.toUpper) = some s := by
  induction s with
  | nil => exact ⟨[], rfl, by simp, rfl⟩
  | cons c rest ih =>
    obtain ⟨t, ht1, ht2, ht3⟩ := ih (fun x hx => h x (List.mem_cons_of_mem _ hx))
    obtain ⟨d, hd1, hd2, hd3⟩ := inverter_acgt c (h c (List.mem_cons_self c rest))
    refine ⟨d :: t, ?_, ?_, ?_⟩
    · simp only [List.map_cons, mapInverter, hd1, ht1]
    · intro x hx
      rcases List.mem_cons.mp hx with hx | hx
      · subst hx
        exact hd2
      · exact ht2 x hx
    · simp only [List.map_cons, mapInverter, hd3, ht3]

/-- C7: the nucleotide complement maps A to T, T to A, C to G and G to C;
complementing an uppercase ACGT allele twice returns the original string; and
when the alignment search resolves to the minus strand, the returned `BLAT`
record carries the complements of both the reference and the alternate
allele. -/
theorem inverse_complement_roundtrip :
    (inverter 'A' = some 'T' ∧ inverter 'T' = some 'A'
      ∧ inverter 'C' = some 'G' ∧ inverter 'G' = some 'C')
    ∧ (∀ s : List Char, (∀ c ∈ s, c = 'A' ∨ c = 'C' ∨ c = 'G' ∨ c = 'T') →
        ∃ t, inverse (some s) = some (some t) ∧ inverse (some t) = some (some s))
    ∧ (∀ genome chrom : List Char, ∀ gpos : Int, ∀ ref alt : List Char,
        (∀ c ∈ ref, c = 'A' ∨ c = 'C' ∨ c = 'G' ∨ c = 'T') →
        (∀ c ∈ alt, c = 'A' ∨ c = 'C' ∨ c = 'G' ∨ c = 'T') →
        ∃ ref2 alt2,
          inverse (some ref) = some (some ref2)
          ∧ inverse (some alt) = some (some alt2)
          ∧ blatFinalize genome chrom gpos (some ref) (some alt) '-'
              = GIRes.record ⟨chrom, some gpos, PyVal.strV ref2, PyVal.strV alt2,
                              genome, "BLAT".data⟩) := by
  refine ⟨⟨by decide, by decide, by decide, by decide⟩, ?_, ?_⟩
  · intro s hs
    obtain ⟨t, ht1, _, ht3⟩ := mapInverter_roundtrip s hs
    exact ⟨t, by simp only [inverse, ht1, Option.map], by simp only [inverse, ht3, Option.map]⟩
  · intro genome chrom gpos ref alt href halt
    obtain ⟨r2, hr1, _, _⟩ := mapInverter_roundtrip ref href
    obtain ⟨a2, ha1, _, _⟩ := mapInverter_roundtrip alt halt
    refine ⟨r2, a2, by simp only [inverse, hr1, Option.map], by simp only [inverse, ha1, Option.map], ?_⟩
    simp only [blatFinalize, inverse, hr1, ha1, Option.map, if_true, optPy]

/-- Witness: the complement round trip and the minus-strand record applied at
the allele `ACGT` and at a concrete minus-strand blat resolution. -/
theorem inverse_complement_roundtrip_witness :
    (∃ t, inverse (some "ACGT".data) = some (some t)
      ∧ inverse (some t) = some (some "ACGT".data))
    ∧ (∃ ref2 alt2,
        inverse (some "AC".data) = some (some ref2)
        ∧ inverse (some "T".data) = some (some alt2)
        ∧ blatFinalize "hg19".data "chr7".data 5 (some "AC".data) (some "T".data) '-'
            = GIRes.record ⟨"chr7".data, some 5, PyVal.strV ref2, PyVal.strV alt2,
                            "hg19".data, "BLAT".data⟩) := by
  constructor
  · exact inverse_complement_roundtrip.2.1 "ACGT".data (by decide)
  · exact inverse_complement_roundtrip.2.2 "hg19".data "chr7".data 5 "AC".data "T".data
      (by decide) (by decide)

/-- A concrete minus-strand dbSNP row whose observed field holds a multi-base
allele (`AT/C`, NCBI and UCSC reference both `TA`). -/
def ucscRow0 : UcscRow :=
  ⟨"chr1".data, 100, 101, "TA".data, "TA".data, "AT/C".data, "-".data⟩

/-- C8 counterexample: on a minus-strand row with the multi-base observed
allele `AT`, the code complements the characters of the joined observed string
(producing the three single-base alternates `T`, `A`, `G`), not the
`/`-separated alleles as whole strings (which would produce the single
alternate `G`), so the claim as stated is false on this row. -/
theorem ucsc_minus_strand_counterexample :
    processRow "hg19".data ucscRow0
      = some ⟨"chr1".data, some 101, PyVal.strV "TA".data,
              PyVal.listV ["T".data, "A".data, "G".data], "hg19".data, "UCSC".data⟩
    ∧ processRow_claimed "hg19".data ucscRow0
      = some ⟨"chr1".data, some 101, PyVal.strV "TA".data,
              PyVal.strV "G".data, "hg19".data, "UCSC".data⟩
    ∧ processRow "hg19".data ucscRow0 ≠ processRow_claimed "hg19".data ucscRow0 := by
  refine ⟨rfl, rfl, ?_⟩
  decide

theorem seqObserved_forall2 (s : List Char) (os : List (List Char))
    (h : seqObserved s = some os) :
    List.Forall₂ (fun c v => (c = '-' ∧ v = ['-'])
      ∨ ∃ c2, inverter (Char.toUpper c) = some c2 ∧ v = [c2]) s os := by
  induction s generalizing os with
  | nil =>
    simp only [seqObserved, Option.some.injEq] at h
    subst h
    exact List.Forall₂.nil
  | cons x rest ih =>
    rw [seqObserved] at h
    by_cases hx : x = '-'
    · subst hx
      rw [if_pos rfl] at h
      cases hrest : seqObserved rest with
      | none =>
        rw [hrest] at h
        exact absurd h (by simp)
      | some vs =>
        rw [hrest] at h
        simp only [Option.some.injEq] at h
        subst h
        exact List.Forall₂.cons (Or.inl ⟨rfl, rfl⟩) (ih vs hrest)
    · rw [if_neg hx] at h
      cases hinv : inverter (Char.toUpper x) with
      | none =>
        rw [show mapInverter [Char.toUpper x] = none by
          simp only [mapInverter, hinv]] at h
        exact absurd h (by simp)
      | some c2 =>
        rw [show mapInverter [Char.toUpper x] = some [c2] by
          simp only [mapInverter, hinv]] at h
        cases hrest : seqObserved rest with
        | none =>
          rw [hrest] at h
          exact absurd h (by simp)
        | some vs =>
          rw [hrest] at h
          simp only [Option.some.injEq] at h
          subst h
          exact List.Forall₂.cons (Or.inr ⟨c2, hinv, rfl⟩) (ih vs hrest)

/-- C8 amended: in the SNP-database row processing, whatever the strand, the
produced record keeps the NCBI reference field (the UCSC value is only
logged); on a minus-strand row the observed alleles are obtained by
complementing the characters of the concatenation of the `/`-separated
observed field one character at a time (the `-` marker preserved, each
resulting entry a single base — multi-base alleles are split per base, not
complemented as whole strings), and the alternates are the entries differing
from the kept NCBI reference. -/
theorem ucsc_minus_strand_perchar :
    (∀ g : List Char, ∀ r : UcscRow, ∀ rec : RetDict, processRow g r = some rec →
      rec.ref = PyVal.strV r.refNCBI ∧ rec.chrom = r.chrom
      ∧ rec.offset = some r.chromEnd ∧ rec.source = "UCSC".data)
    ∧ (∀ g : List Char, ∀ r : UcscRow, r.strand = ['-'] →
        processRow g r
          = match seqObserved ((splitSlash r.observed).flatten) with
            | none => none
            | some os =>
              some ⟨r.chrom, some r.chromEnd, PyVal.strV r.refNCBI,
                    altOf (os.filter (fun x => x ≠ r.refNCBI)), g, "UCSC".data⟩)
    ∧ (∀ s : List Char, ∀ os : List (List Char), seqObserved s = some os →
        List.Forall₂ (fun c v => (c = '-' ∧ v = ['-'])
          ∨ ∃ c2, inverter (Char.toUpper c) = some c2 ∧ v = [c2]) s os) := by
  refine ⟨?_, ?_, seqObserved_forall2⟩
  · intro g r rec h
    simp only [processRow] at h
    split at h
    · exact absurd h (by simp)
    · simp only [Option.some.injEq] at h
      subst h
      exact ⟨rfl, rfl, rfl, rfl⟩
  · intro g r hstrand
    simp only [processRow, hstrand, if_pos]

/-- Witness: the per-character amended behaviour applied to the concrete
minus-strand row, evaluating to the three single-base alternates. -/
theorem ucsc_minus_strand_perchar_witness :
    processRow "hg19".data ucscRow0
      = some ⟨"chr1".data, some 101, PyVal.strV "TA".data,
              PyVal.listV ["T".data, "A".data, "G".data], "hg19".data, "UCSC".data⟩ := by
  exact (ucsc_minus_strand_perchar.2.1 "hg19".data ucscRow0 rfl).trans (by rfl)

theorem case34Step_ne_listR (s : List Char) (a b : FuzzyRes) :
    case34Step s ≠ FuzzyRes.listR a b := by
  intro h
  unfold case34Step at h
  split at h
  · exact absurd h (by simp)
  · split at h
    · split at h
      · exact absurd h (by simp)
      · exact absurd h (by simp)
    · exact absurd h (by simp)

theorem combineFuzzy_listR (x y a b : FuzzyRes)
    (h : combineFuzzy x y = FuzzyRes.listR a b) : x = a ∧ y = b := by
  cases x <;> cases y <;> simp only [combineFuzzy] at h <;>
    first
      | (simp only [FuzzyRes.listR.injEq] at h; exact h)
      | exact absurd h (by simp)

unseal fuzzy_hgvs_corrector case2Sub case3Sub case4SubAll in
/-- C9: `fuzzy_hgvs_corrector` returns a list only when the (tag-injected,
arrow-normalised) variant matches the two-alternate `/` substitution pattern;
the list then holds exactly the two recursively corrected halves, the first
keeping the first alternate and the second keeping the second; in particular
`1387C>T/A` (or `1387C->T/A`) with transcript `NM_1` and ref type `c` yields
the two strings `NM_1:c.1387C>T` and `NM_1:c.1387C>A`. -/
theorem fuzzy_corrector_list_only_slash :
    (∀ (v : List Char) (t : Option (List Char)) (r : Option Char) (a b : FuzzyRes),
      fuzzy_hgvs_corrector v t r = FuzzyRes.listR a b →
      ∃ nv, addTranscriptPart v t r = TagRes.cont nv
        ∧ case2Search (replaceArrow nv) = true
        ∧ a = fuzzy_hgvs_corrector (case2Sub true (replaceArrow nv)) none none
        ∧ b = fuzzy_hgvs_corrector (case2Sub false (replaceArrow nv)) none none)
    ∧ fuzzy_hgvs_corrector "1387C>T/A".data (some "NM_1".data) (some 'c')
        = FuzzyRes.listR (FuzzyRes.strR "NM_1:c.1387C>T".data)
            (FuzzyRes.strR "NM_1:c.1387C>A".data)
    ∧ fuzzy_hgvs_corrector "1387C->T/A".data (some "NM_1".data) (some 'c')
        = FuzzyRes.listR (FuzzyRes.strR "NM_1:c.1387C>T".data)
            (FuzzyRes.strR "NM_1:c.1387C>A".data) := by
  refine ⟨?_, by rfl, by rfl⟩
  intro v t r a b h
  rw [fuzzy_hgvs_corrector.eq_def] at h
  split at h
  · exact absurd h (by simp)
  · split at h
    · exact absurd h (by simp)
    · exact absurd h (by simp)
    · rename_i nv h1
      split at h
      · rename_i h2
        obtain ⟨ha, hb⟩ := combineFuzzy_listR _ _ _ _ h
        exact ⟨nv, h1, h2, ha.symm, hb.symm⟩
      · exact absurd h (case34Step_ne_listR _ a b)

unseal fuzzy_hgvs_corrector case2Sub case3Sub case4SubAll in
/-- Witness: the list-only-from-`/` characterisation applied to the concrete
example, with the corrector evaluated on it. -/
theorem fuzzy_corrector_list_only_slash_witness :
    ∃ nv, addTranscriptPart "1387C>T/A".data (some "NM_1".data) (some 'c')
          = TagRes.cont nv
      ∧ case2Search (replaceArrow nv) = true
      ∧ FuzzyRes.strR "NM_1:c.1387C>T".data
          = fuzzy_hgvs_corrector (case2Sub true (replaceArrow nv)) none none
      ∧ FuzzyRes.strR "NM_1:c.1387C>A".data
          = fuzzy_hgvs_corrector (case2Sub false (replaceArrow nv)) none none := by
  exact fuzzy_corrector_list_only_slash.1 "1387C>T/A".data (some "NM_1".data) (some 'c')
    (FuzzyRes.strR "NM_1:c.1387C>T".data) (FuzzyRes.strR "NM_1:c.1387C>A".data)
    (by rfl)

/-- C4: for a coding-DNA (`c`) variant the coordinate-mapping step of
`get_info` tries the alignment methods in the fixed order splign, blat,
genewise, stops at the first success and adopts its projection as the working
elements; when every method fails the working elements stay exactly the parsed
ones (and resolution continues with the later strategies of `afterParse`). -/
theorem biocommons_mapping_order (env : Env) (e : Elements) (hc : e.type = "c".data) :
    (∀ r, env.splign = some r → mapWithBiocommons env e = r)
    ∧ (env.splign = none → ∀ r, env.blatMethod = some r → mapWithBiocommons env e = r)
    ∧ (env.splign = none → env.blatMethod = none → ∀ r, env.genewise = some r →
        mapWithBiocommons env e = r)
    ∧ (env.splign = none → env.blatMethod = none → env.genewise = none →
        mapWithBiocommons env e = e) := by
  refine ⟨?_, ?_, ?_, ?_⟩
  · intro r hr
    simp [mapWithBiocommons, hc, biocommonsLoop, hr]
  · intro h1 r hr
    simp [mapWithBiocommons, hc, biocommonsLoop, h1, hr]
  · intro h1 h2 r hr
    simp [mapWithBiocommons, hc, biocommonsLoop, h1, h2, hr]
  · intro h1 h2 h3
    simp [mapWithBiocommons, hc, biocommonsLoop, h1, h2, h3]

/-- Oracle environment for the coordinate-mapping witness: splign fails, blat
succeeds with a genomic projection. -/
def envC4 : Env :=
  ⟨"hg19".data, fun _ => none, [], none, fun _ _ => none,
   none, some ⟨"NC_000001.11".data, "g".data, 5, some "A".data, some "T".data⟩, none,
   none, CounsylRes.keyError, none, [], [], [], none⟩

/-- Witness: with splign failing and blat succeeding, the mapping step adopts
the blat projection for a `c` variant. -/
theorem biocommons_mapping_order_witness :
    mapWithBiocommons envC4 ⟨"NM_1".data, "c".data, 3, none, none⟩
      = ⟨"NC_000001.11".data, "g".data, 5, some "A".data, some "T".data⟩ := by
  exact (biocommons_mapping_order envC4 ⟨"NM_1".data, "c".data, 3, none, none⟩ rfl).2.1
    rfl _ rfl

/-- C5: when the working accession (the parsed accession, possibly replaced by
a successful coordinate-mapping projection) classifies as `NC` (complete
genomic reference), the post-parse pipeline returns at the reference-assembly
lookup step: the `NC_transcript` record when the fixed chromosome/assembly
pattern matched the fetched metadata and the no-result value when it did not;
the local-converter (pyhgvs), gene-database (LOVD) and alignment-search
strategies are never consulted (the result is independent of their
oracles). -/
theorem nc_shortcircuit (env : Env) (kw : KW) (e : Elements)
    (hnc : getNcbiAccessionType (mapWithBiocommons env e).transcript = some "NC".data) :
    afterParse env kw e
      = match env.ncSearch with
        | none => GIRes.noneR
        | some (chromName, assembly) =>
          GIRes.record ⟨chromName, some (mapWithBiocommons env e).position,
            optPy (mapWithBiocommons env e).ref, optPy (mapWithBiocommons env e).alt,
            assembly, "NC_transcript".data⟩ := by
  simp only [afterParse, hnc, if_pos]

/-- Oracle environment for the `NC` short-circuit witness: the metadata pattern
matches chromosome 1 on GRCh37.p13, and every later-strategy oracle is left in
a state that would succeed, to show it is not consulted. -/
def envC5 : Env :=
  ⟨"hg19".data, fun _ => none, [], none, fun _ _ => none,
   none, none, none,
   some ("1".data, "GRCh37.p13".data),
   CounsylRes.ok "chrZ".data 1 "G".data "C".data,
   some ("chrY".data, some 2, "hg18".data),
   [], [], [], none⟩

/-- Witness: the `NC` short-circuit applied to the parsed variant
`NC_000001.11:g.97593343C>A`, returning the `NC_transcript` record even though
the pyhgvs and LOVD oracles would have succeeded. -/
theorem nc_shortcircuit_witness :
    getNcbiAccessionType
        (mapWithBiocommons envC5
          ⟨"NC_000001.11".data, "g".data, 97593343, some "C".data, some "A".data⟩).transcript
      = some "NC".data
    ∧ afterParse envC5 KW.empty
        ⟨"NC_000001.11".data, "g".data, 97593343, some "C".data, some "A".data⟩
      = GIRes.record ⟨"1".data, some 97593343, PyVal.strV "C".data, PyVal.strV "A".data,
          "GRCh37.p13".data, "NC_transcript".data⟩ := by
  constructor
  · rfl
  · exact (nc_shortcircuit envC5 KW.empty
      ⟨"NC_000001.11".data, "g".data, 97593343, some "C".data, some "A".data⟩
      (by rfl)).trans (by rfl)

/-- Oracle environment for the rs-variant fall-through evaluation: dbSNP holds
exactly one row for the query, the strict parser and Mutalyzer fail on the rs
name, and a VEP record is available (to show it is not returned either). -/
def envC1 : Env :=
  ⟨"hg19".data, fun _ => none,
   [⟨"chr3".data, 8762684, 8762685, "A".data, "A".data, "A/G".data, "+".data⟩],
   some ⟨"chr9".data, some 7, PyVal.strV "A".data, PyVal.strV "G".data,
         "hg19".data, "VEP".data⟩,
   fun _ _ => none, none, none, none, none, CounsylRes.keyError, none, [], [], [], none⟩

/-- Same environment with an empty dbSNP result, for the zero-row branch. -/
def envC1empty : Env :=
  ⟨"hg19".data, fun _ => none, [],
   some ⟨"chr9".data, some 7, PyVal.strV "A".data, PyVal.strV "G".data,
         "hg19".data, "VEP".data⟩,
   fun _ _ => none, none, none, none, none, CounsylRes.keyError, none, [], [], [], none⟩

unseal fuzzy_hgvs_corrector case2Sub case3Sub case4SubAll in
/-- C1 evaluation (code bug): for the rs variant `rs53576` the dbSNP lookup
returns a single `UCSC` record, yet `get_info` does not return it — the truthy
result falls through (the `if not ret` branch has no matching `return ret`) to
HGVS parsing, which fails for an rs name, and the resolution ends in the
Mutalyzer fallback's `None`; the VEP record is not returned either.  Only an
empty lookup routes to the VEP path, whose record is then returned. -/
theorem ucsc_hit_falls_through_eval :
    search_ucsc envC1.genome envC1.ucscRows
      = some (UcscSearchRes.single ⟨"chr3".data, some 8762685, PyVal.strV "A".data,
          PyVal.strV "G".data, "hg19".data, "UCSC".data⟩)
    ∧ get_info envC1 3 KW.empty (Variant.str "rs53576".data) = GIRes.noneR
    ∧ get_info envC1empty 3 KW.empty (Variant.str "rs53576".data)
        = GIRes.record ⟨"chr9".data, some 7, PyVal.strV "A".data, PyVal.strV "G".data,
            "hg19".data, "VEP".data⟩ := by
  exact ⟨rfl, rfl, rfl⟩

/-- A genbank record carrying CDS features for two different genes (`A` and
`B`) and no mRNA features. -/
def grecC3 : GRecord :=
  ⟨[⟨"CDS".data, ["A".data], ⟨0, 5, 1⟩, []⟩,
    ⟨"CDS".data, ["B".data], ⟨10, 20, 1⟩, []⟩]⟩

/-- Oracle environment for the ambiguous-gene evaluation: the parser yields a
coding variant on a non-`NC` accession, pyhgvs and LOVD fail, and the genbank
record is `grecC3`. -/
def envC3 : Env :=
  ⟨"hg19".data,
   fun _ => some ⟨"NT_000001.1".data, "c".data, 10, some "A".data, some "G".data⟩,
   [], none, fun _ _ => none, none, none, none, none,
   CounsylRes.keyError, none, "ACGTACGTACGTACGT".data, [grecC3], [], none⟩

unseal dedupGenes in
/-- C3 evaluation (code bug): with features for two genes and no gene hint,
the inner gene selector does return the explicit `None` failure signal, but
`_get_sequence_features_from_genbank` then hands the failed selection to
`make_ret_function`, so the locator raises instead of returning `None`, and
the whole `get_info` resolution raises instead of returning the no-result
value. -/
theorem ambiguous_gene_raises_eval :
    select_gene none grecC3.features ["A".data, "B".data] = SelGeneRes.noneG
    ∧ selectFeatures none grecC3 "CDS".data = SelPosRes.noneF
    ∧ genbankLocator [grecC3] none = LocOutcome.raisedO
    ∧ get_info envC3 2 KW.empty (Variant.str "NT_000001.1:c.10A>G".data)
        = GIRes.raised "genbank" := by
  exact ⟨rfl, rfl, rfl, rfl⟩

/-- Abnormal termination of a sub-resolution: an uncaught exception (or the
model's fuel exhaustion), which propagates out of a list comprehension. -/
def isAbnormal : GIRes → Bool
  | GIRes.raised _ => true
  | GIRes.fuelOut => true
  | _ => false

/-- C10: `get_info` accepts a str (processed directly), a unicode string
(stripped, converted to str and reprocessed with the same keyword arguments),
and a list (resolved elementwise, dropping the keyword arguments); an argument
of any other type returns the no-result value `None` without raising; and a
list of normally-terminating sub-results is returned as the list of those
results in input order. -/
theorem get_info_input_types (env : Env) (fuel : Nat) (kw : KW) (tag : List Char)
    (s : List Char) (l : List Variant) (rs : List GIRes) :
    get_info env (fuel + 1) kw (Variant.other tag) = GIRes.noneR
    ∧ get_info env (fuel + 1) kw (Variant.unicode s)
        = get_info env fuel kw (Variant.str (pyStrip s))
    ∧ get_info env (fuel + 1) kw (Variant.list l)
        = collectList (l.map (fun x => get_info env fuel KW.empty x))
    ∧ ((∀ r ∈ rs, isAbnormal r = false) → collectList rs = GIRes.list rs) := by
  refine ⟨rfl, rfl, rfl, ?_⟩
  induction rs with
  | nil =>
    intro _
    rfl
  | cons r rest ih =>
    intro h
    have hr := h r (List.mem_cons_self r rest)
    have hrest := ih (fun x hx => h x (List.mem_cons_of_mem _ hx))
    cases r with
    | raised m => exact absurd hr (by simp [isAbnormal])
    | fuelOut => exact absurd hr (by simp [isAbnormal])
    | noneR => simp only [collectList, hrest]
    | record rec2 => simp only [collectList, hrest]
    | list ll => simp only [collectList, hrest]

/-- A trivial oracle environment (every collaborator failing). -/
def envTrivial : Env :=
  ⟨"hg19".data, fun _ => none, [], none, fun _ _ => none, none, none, none, none,
   CounsylRes.keyError, none, [], [], [], none⟩

/-- Witness: the order-preserving list collection applied to a concrete
two-element result list, and the unknown-type branch at a concrete dict-like
argument. -/
theorem get_info_input_types_witness :
    collectList [GIRes.noneR,
        GIRes.record ⟨"chr1".data, some 1, PyVal.noneV, PyVal.noneV,
          "hg19".data, "UCSC".data⟩]
      = GIRes.list [GIRes.noneR,
          GIRes.record ⟨"chr1".data, some 1, PyVal.noneV, PyVal.noneV,
            "hg19".data, "UCSC".data⟩]
    ∧ get_info envTrivial 1 KW.empty (Variant.other "dict".data) = GIRes.noneR := by
  constructor
  · exact (get_info_input_types envTrivial 0 KW.empty [] [] [] _).2.2.2 (by decide)
  · exact (get_info_input_types envTrivial 0 KW.empty "dict".data [] [] []).1
